import Mathlib

/-!
Shallow embedding of `src/pdf_section_extractor.py` and proofs about it.

Python strings are modelled as `List Char` (`Str`).  `str.lower` and the
regex character classes `\d`, `\s`, `[A-Za-z]` are modelled over their ASCII
behaviour (`Char.toLower`, `Char.isDigit`, `isWs`, `Char.isAlpha`); the two
extra punctuation characters of the source (em dash, right single quote) are
carried along literally.  Python dicts (which preserve insertion order and
overwrite in place on key reassignment) are modelled as association lists
with `dinsert` / `dlookup`.  Fallible code returns `Except PyErr`.  The
external document reader (`fitz`) is modelled by `PyDoc`: the ordered list
of per-page raw texts plus the metadata title string.
-/

abbrev Str := List Char

/-- Exception kinds raised or caught by the program.  Every constructor
corresponds to a Python exception class that derives from `Exception`. -/
inductive PyErr where
  | keyError
  | indexError
  | nameError
  | valueError
  | fileNotFoundError
  | ioError
  | permissionError
  | regexError
deriving DecidableEq

/-- The set `characters_to_replace` of `clean_text`: the Python constant
`string.punctuation` plus the em dash and the right single quotation mark. -/
def characters_to_replace : Str :=
  ("!\x22#$%&\x27()*+,-./:;<=>?@[\\]^_\x60\x7b|\x7d~—’").toList

def isPunct (c : Char) : Bool := characters_to_replace.contains c

/-- ASCII fragment of Python's whitespace class (`\s`, `str.strip`,
`str.split()`). -/
def isWs (c : Char) : Bool :=
  c == ' ' || c == '\t' || c == '\n' || c == '\r' || c == '\x0b' || c == '\x0c'

/-- The substitution step of `clean_text` (regex `\s+` replaced by a single
space): every maximal whitespace run is replaced by a
single space.  `prevWs` records whether we are inside a run whose single
replacement space has already been emitted. -/
def collapseAux : Bool → Str → Str
  | _, [] => []
  | prevWs, c :: t =>
      if isWs c then
        if prevWs then collapseAux true t else ' ' :: collapseAux true t
      else c :: collapseAux false t

def collapseWs (l : Str) : Str := collapseAux false l

/-- Python `str.strip()`: drop whitespace from both ends. -/
def stripList (l : Str) : Str :=
  ((l.dropWhile isWs).reverse.dropWhile isWs).reverse

/-- The function `clean_text` of the source: replace every character of
`characters_to_replace` by a space, lowercase, collapse whitespace runs to
single spaces, and strip. -/
def cleanList (l : Str) : Str :=
  stripList (collapseWs (l.map (fun c => (if isPunct c then ' ' else c).toLower)))

def clean_text (s : String) : String := String.mk (cleanList s.toList)

example : clean_text ("A  b—c’D.") = ("a b c d") := by rfl
example : clean_text ("") = ("") := by rfl

/-- Index of the first occurrence of `sub` in `t` (Python `str.find` /
the position used by `in` and `split`). -/
def findSub (sub : Str) : Str → Option Nat
  | [] => if sub.isPrefixOf [] then some 0 else none
  | c :: t => if sub.isPrefixOf (c :: t) then some 0 else (findSub sub t).map (· + 1)

/-- Python's substring test `sub in t`. -/
def containsSub (sub t : Str) : Bool := (findSub sub t).isSome

/-- Python's `text.split(m)[1]` for `m` occurring in `text`: the segment
after the first occurrence of `m`, up to the next occurrence (or the end). -/
def afterMarker (m t : Str) : Str :=
  match findSub m t with
  | none => t
  | some i =>
      let rest := t.drop (i + m.length)
      match findSub m rest with
      | none => rest
      | some j => rest.take j

/-- The Python split `text.split` on the newline character, keeping empty
segments. -/
def splitLinesAux (cur : Str) : Str → List Str
  | [] => [cur.reverse]
  | c :: t => if c = '\n' then cur.reverse :: splitLinesAux [] t else splitLinesAux (c :: cur) t

def splitLines (t : Str) : List Str := splitLinesAux [] t

/-- Insertion-ordered dict assignment `d[k] = v`: overwrite in place if the
key is present (keys are unique in every dict the program builds), append
otherwise. -/
def dinsert {α : Type} : List (Str × α) → Str → α → List (Str × α)
  | [], k, v => [(k, v)]
  | kv :: rest, k, v => if kv.1 = k then (k, v) :: rest else kv :: dinsert rest k v

/-- Dict lookup `d[k]`, `none` modelling a `KeyError`. -/
def dlookup {α : Type} : List (Str × α) → Str → Option α
  | [], _ => none
  | kv :: rest, k => if kv.1 = k then some kv.2 else dlookup rest k

/-- The chapter→sections dict built by the TOC parser. -/
abbrev CS := List (Str × List Str)

/-- The output dict of the content scanner. -/
abbrev SDict := List (Str × Str)

/-- The external document: per-page raw text blobs and the metadata title. -/
structure PyDoc where
  pages : List Str
  title : Str

def chapterMarker : Str := ("CHAPTER").toList

/-- Predicate `is_chapter_line`: the literal substring CHAPTER occurs in the
line. -/
def is_chapter_line (line : Str) : Bool := containsSub chapterMarker line

/-- The text matched by `re.match(r"^\d+\.\s+[A-Za-z].*", line.strip())`:
one or more digits, a period, one or more whitespace characters, a letter,
then everything up to the next newline.  `none` when the regex does not
match. -/
def sectionGroup (line : Str) : Option Str :=
  let s := stripList line
  let ds := s.takeWhile Char.isDigit
  match s.dropWhile Char.isDigit with
  | '.' :: r2 =>
      if ds.isEmpty then none
      else
        let sp := r2.takeWhile isWs
        match r2.dropWhile isWs with
        | c :: rest =>
            if sp.isEmpty then none
            else if c.isAlpha then
              some (ds ++ '.' :: (sp ++ c :: rest.takeWhile (fun d => d ≠ '\n')))
            else none
        | [] => none
  | _ => none

/-- Predicate `is_section_line`: the section regex matches the stripped
line. -/
def is_section_line (line : Str) : Bool := (sectionGroup line).isSome

/-- Method `process_toc_line`: classify a TOC line.  A chapter line resets that
chapter's section list; a section line appends its cleaned text to the
current chapter's list, raising `KeyError` when the current chapter (the
initial empty string before any chapter line) is not a dict key. -/
def process_toc_line (line cc : Str) (cs : CS) : Except PyErr (Str × CS) :=
  if is_chapter_line line then
    Except.ok (stripList line, dinsert cs (stripList line) [])
  else
    match sectionGroup line with
    | some g =>
        match dlookup cs cc with
        | some secs => Except.ok (cc, dinsert cs cc (secs ++ [cleanList g]))
        | none => Except.error PyErr.keyError
    | none => Except.ok (cc, cs)

def processLines : List Str → Str → CS → Except PyErr (Str × CS)
  | [], cc, cs => Except.ok (cc, cs)
  | ln :: rest, cc, cs =>
      match process_toc_line ln cc cs with
      | Except.error e => Except.error e
      | Except.ok (cc', cs') => processLines rest cc' cs'

def tocMarker : Str := ("ARRANGEMENT OF SECTIONS").toList

/-- The page loop of `extract_table_of_contents`.  Arguments: remaining
pages, the current page index (`page.number`), the dict, `current_chapter`,
`toc_found`, and the `last_page` value carried from the previous iteration
(overwritten with the page index at the top of each iteration; the `break`
therefore returns the index of the page it fires on). -/
def tocLoop (title : Str) : List Str → Nat → CS → Str → Bool → Nat → Except PyErr (CS × Nat)
  | [], _, cs, _, _, lp => Except.ok (cs, lp)
  | p :: rest, i, cs, cc, tf, _ =>
      let mfound := containsSub tocMarker p
      let text := if mfound then afterMarker tocMarker p else p
      let tf' := tf || mfound
      if tf' then
        if containsSub title text && !mfound then Except.ok (cs, i)
        else
          match processLines (splitLines text) cc cs with
          | Except.error e => Except.error e
          | Except.ok (cc', cs') => tocLoop title rest (i + 1) cs' cc' tf' i
      else tocLoop title rest (i + 1) cs cc tf' i

/-- Method `extract_table_of_contents`: scan all pages for the TOC block and
return
the chapter→sections dict together with `last_page`. -/
def extract_table_of_contents (doc : PyDoc) : Except PyErr (CS × Nat) :=
  tocLoop doc.title doc.pages 0 [] [] false 0

/-- Python `str.split()` (no argument): whitespace-separated words, no empty
segments.  `cur` is the reversed current word. -/
def pySplitAux (cur : Str) : Str → List Str
  | [] => if cur.isEmpty then [] else [cur.reverse]
  | c :: t =>
      if isWs c then
        if cur.isEmpty then pySplitAux [] t else cur.reverse :: pySplitAux [] t
      else pySplitAux (c :: cur) t

def pySplit (l : Str) : List Str := pySplitAux [] l

/-- The per-word regex fragment of `compile_section_pattern` is
`word + "s?"` for a word not ending in `s` and `word + "?"` (the trailing
`s` made optional) for a word ending in `s` — in both cases the stem below
followed by an optional `s`. -/
def stemOf (w : Str) : Str := if w.getLast? = some 's' then w.dropLast else w

/-- Does the word part of the compiled pattern (the per-word stems with an
optional trailing `s`, joined by `\s`, i.e. exactly one whitespace
character) match at the head of `t`?  The trailing `(.*?)(?=\f|\Z)` of the
pattern matches any remainder under `re.DOTALL`, so it never constrains the
match start and is dropped here.  The two branches after a stem mirror the
regex backtracking on each optional `s`. -/
def matchWordsAt : List Str → Str → Bool
  | [], _ => true
  | [w], t => (stemOf w).isPrefixOf t
  | w :: w2 :: rest, t =>
      (stemOf w).isPrefixOf t &&
        (let t1 := t.drop (stemOf w).length
         (match t1 with
          | c :: t2 => isWs c && matchWordsAt (w2 :: rest) t2
          | [] => false)
         ||
         (match t1 with
          | 's' :: c :: t2 => isWs c && matchWordsAt (w2 :: rest) t2
          | _ => false))

/-- The search `pattern.search(t)`: position of the leftmost match of the
word part. -/
def searchWords (ws : List Str) : Str → Option Nat
  | [] => if matchWordsAt ws [] then some 0 else none
  | c :: t => if matchWordsAt ws (c :: t) then some 0 else (searchWords ws (c :: t).tail).map (· + 1)

/-- Method `compile_section_pattern`, modelled as the matcher it produces: a
function sending a text to the start position of the first match of the
compiled pattern (and `none` when `search` returns no match). -/
def compile_section_pattern (sec : Str) : Str → Option Nat :=
  searchWords (pySplit sec)

/-- The inner `while` loop of `extract_section_content` on one page, with an
explicit structural gas `sections.length - idx`: each iteration either ends
the page (`page_processed`, the no-match branch) or advances
`current_section_index` by one, and the loop guard
`current_section_index < len(sections) - 1` (Python semantics preserved for
the empty list: over `Nat`, `idx + 1 < length`) fails once the gas would run
out, so the gas-0 branch returns the state exactly as the guard does. -/
def scanPageGas (sections : List Str) : Nat → Nat → Str → Str → SDict → Nat × Str × Str × SDict
  | 0, idx, acc, text, fd => (idx, acc, text, fd)
  | gas + 1, idx, acc, text, fd =>
      if idx + 1 < sections.length then
        match compile_section_pattern (sections.getD (idx + 1) []) text with
        | some st =>
            scanPageGas sections gas (idx + 1) [] (text.drop st)
              (dinsert fd (sections.getD idx []) (acc ++ stripList (text.take st)))
        | none => (idx, acc ++ text, text, fd)
      else (idx, acc, text, fd)

def scanPage (sections : List Str) (idx : Nat) (acc text : Str) (fd : SDict) :
    Nat × Str × Str × SDict :=
  scanPageGas sections (sections.length - idx) idx acc text fd

/-- The page loop of `extract_section_content`: clean each page's text, run
the inner loop, and thread `current_section_index`, the accumulator, the
local variable `text` (an `Option` because it is unbound before the first
iteration) and the output dict to the next page. -/
def scanPagesAux (sections : List Str) : List Str → Nat → Str → Option Str → SDict → Nat × Str × Option Str × SDict
  | [], idx, acc, textOpt, fd => (idx, acc, textOpt, fd)
  | pg :: rest, idx, acc, _, fd =>
      match scanPage sections idx acc (cleanList pg) fd with
      | (idx', acc', t', fd') => scanPagesAux sections rest idx' acc' (some t') fd'

/-- Method `extract_section_content`.  The final unconditional assignment
`formatted_data[sections[current_section_index]] = text` evaluates the
right-hand side first (`NameError` when no page was scanned and `text` is
unbound), then the index expression (`IndexError` when
`current_section_index` is out of range, in particular for an empty section
list), and stores the last page's remaining text — not the accumulator. -/
def extract_section_content (doc : PyDoc) (start_page : Nat) (sections : List Str) :
    Except PyErr SDict :=
  match scanPagesAux sections (doc.pages.drop start_page) 0 [] none [] with
  | (idx, _, textOpt, fd) =>
      match textOpt with
      | none => Except.error PyErr.nameError
      | some t =>
          if h : idx < sections.length then Except.ok (dinsert fd (sections.get ⟨idx, h⟩) t)
          else Except.error PyErr.indexError

/-- The flattening `[sec for secs in chapters_sections.values() for sec in secs]`. -/
def flattenSections (cs : CS) : List Str :=
  cs.foldr (fun kv acc => kv.2 ++ acc) []

/-- The body of the `try` block of `extract_sections_to_json`; the writer
collaborator's outcome (`save_data_to_json`) is passed in as `writeRes`. -/
def runPipeline (doc : PyDoc) (writeRes : Except PyErr Unit) : Except PyErr SDict :=
  match extract_table_of_contents doc with
  | Except.error e => Except.error e
  | Except.ok (cs, end_page) =>
      match extract_section_content doc end_page (flattenSections cs) with
      | Except.error e => Except.error e
      | Except.ok fd =>
          match writeRes with
          | Except.error e => Except.error e
          | Except.ok _ => Except.ok fd

/-- First `except` clause: `(FileNotFoundError, IOError, PermissionError)`. -/
def isFileErrKind : PyErr → Bool
  | PyErr.fileNotFoundError => true
  | PyErr.ioError => true
  | PyErr.permissionError => true
  | _ => false

/-- Second `except` clause: `re.error`. -/
def isRegexErrKind : PyErr → Bool
  | PyErr.regexError => true
  | _ => false

/-- Third `except` clause: `(ValueError, IndexError)`. -/
def isDataErrKind : PyErr → Bool
  | PyErr.valueError => true
  | PyErr.indexError => true
  | _ => false

/-- Fourth `except` clause, `except Exception`: every modelled exception
class (`KeyError`, `IndexError`, `NameError`/`UnboundLocalError`,
`ValueError`, `FileNotFoundError`, `IOError`, `PermissionError`,
`re.error`) derives from Python's `Exception`. -/
def isExceptionSubclass : PyErr → Bool
  | PyErr.keyError => true
  | PyErr.indexError => true
  | PyErr.nameError => true
  | PyErr.valueError => true
  | PyErr.fileNotFoundError => true
  | PyErr.ioError => true
  | PyErr.permissionError => true
  | PyErr.regexError => true

/-- What `extract_sections_to_json` produces: the saved data on success, or
one of the four printed diagnostic categories. -/
inductive Outcome where
  | success (data : SDict)
  | fileErrorMsg (e : PyErr)
  | regexErrorMsg (e : PyErr)
  | dataErrorMsg (e : PyErr)
  | unknownErrorMsg (e : PyErr)
deriving DecidableEq

/-- The except chain of `extract_sections_to_json`, in source order.  An
exception matched by no clause would propagate (`Except.error`). -/
def categorizeError (e : PyErr) : Except PyErr Outcome :=
  if isFileErrKind e then Except.ok (Outcome.fileErrorMsg e)
  else if isRegexErrKind e then Except.ok (Outcome.regexErrorMsg e)
  else if isDataErrKind e then Except.ok (Outcome.dataErrorMsg e)
  else if isExceptionSubclass e then Except.ok (Outcome.unknownErrorMsg e)
  else Except.error e

/-- Method `extract_sections_to_json`: run the pipeline inside the `try` and
feed
any raised exception to the `except` chain. -/
def extract_sections_to_json (doc : PyDoc) (writeRes : Except PyErr Unit) :
    Except PyErr Outcome :=
  match runPipeline doc writeRes with
  | Except.ok d => Except.ok (Outcome.success d)
  | Except.error e => categorizeError e

/-! ### Character-level facts used for the normalizer proofs -/

theorem toNat_ofNat_valid (n : Nat) (h : n.isValidChar) : (Char.ofNat n).toNat = n := by
  unfold Char.ofNat
  rw [dif_pos h]
  rfl

theorem toLower_eq_of_not_upper (c : Char) (h : ¬(65 ≤ c.toNat ∧ c.toNat ≤ 90)) :
    c.toLower = c := by
  unfold Char.toLower
  rw [if_neg]
  exact fun hc => h ⟨hc.1, hc.2⟩

theorem toNat_toLower_of_upper (c : Char) (h : 65 ≤ c.toNat ∧ c.toNat ≤ 90) :
    c.toLower.toNat = c.toNat + 32 := by
  unfold Char.toLower
  rw [if_pos ⟨h.1, h.2⟩]
  exact toNat_ofNat_valid _ (Or.inl (by omega))

theorem toLower_toLower (c : Char) : c.toLower.toLower = c.toLower := by
  by_cases h : 65 ≤ c.toNat ∧ c.toNat ≤ 90
  · have h2 := toNat_toLower_of_upper c h
    exact toLower_eq_of_not_upper _ (by omega)
  · rw [toLower_eq_of_not_upper c h, toLower_eq_of_not_upper c h]

theorem isPunct_of_range (c : Char) (h1 : 97 ≤ c.toNat) (h2 : c.toNat ≤ 122) :
    isPunct c = false := by
  cases heq : isPunct c with
  | false => rfl
  | true =>
      have hm : c ∈ characters_to_replace := List.mem_of_elem_eq_true heq
      have hall : ∀ d ∈ characters_to_replace, d.toNat < 97 ∨ 122 < d.toNat := by decide
      rcases hall c hm with h | h <;> omega

theorem isPunct_toLower (c : Char) (h : isPunct c = false) : isPunct c.toLower = false := by
  by_cases hu : 65 ≤ c.toNat ∧ c.toNat ≤ 90
  · have h2 := toNat_toLower_of_upper c hu
    exact isPunct_of_range _ (by omega) (by omega)
  · rw [toLower_eq_of_not_upper c hu]
    exact h

/-! ### Invariants characterising normalized text -/

/-- Characters of a normalized string: no punctuation, lowercase-stable, and
the only whitespace character is the plain space. -/
def CleanChars (l : Str) : Prop :=
  ∀ c ∈ l, isPunct c = false ∧ c.toLower = c ∧ (isWs c = true → c = ' ')

/-- No two consecutive whitespace characters. -/
def NoWsRun (l : Str) : Prop :=
  List.Chain' (fun a b => ¬(isWs a = true ∧ isWs b = true)) l

/-- No leading and no trailing whitespace. -/
def TrimEnds (l : Str) : Prop :=
  (∀ c, l.head? = some c → isWs c = false) ∧ (∀ c, l.getLast? = some c → isWs c = false)

theorem mem_collapseAux : ∀ (b : Bool) (l : Str) (c : Char), c ∈ collapseAux b l →
    c = ' ' ∨ (c ∈ l ∧ isWs c = false) := by
  intro b l
  induction l generalizing b with
  | nil => intro c h; simp [collapseAux] at h
  | cons a t ih =>
      intro c h
      cases ha : isWs a with
      | true =>
          cases b with
          | true =>
              simp only [collapseAux, ha, if_true] at h
              rcases ih true c h with h | h
              · exact Or.inl h
              · exact Or.inr ⟨List.mem_cons_of_mem _ h.1, h.2⟩
          | false =>
              simp only [collapseAux, ha, if_true] at h
              rcases List.mem_cons.mp h with h | h
              · exact Or.inl h
              · rcases ih true c h with h | h
                · exact Or.inl h
                · exact Or.inr ⟨List.mem_cons_of_mem _ h.1, h.2⟩
      | false =>
          simp only [collapseAux, ha, Bool.false_eq_true, if_false] at h
          rcases List.mem_cons.mp h with h | h
          · subst h
            exact Or.inr ⟨List.mem_cons_self _ _, ha⟩
          · rcases ih false c h with h | h
            · exact Or.inl h
            · exact Or.inr ⟨List.mem_cons_of_mem _ h.1, h.2⟩

theorem collapseAux_true_head : ∀ (l : Str) (c : Char),
    (collapseAux true l).head? = some c → isWs c = false := by
  intro l
  induction l with
  | nil => intro c h; simp [collapseAux] at h
  | cons a t ih =>
      intro c h
      cases ha : isWs a with
      | true =>
          simp only [collapseAux, ha, if_true] at h
          exact ih c h
      | false =>
          simp only [collapseAux, ha, Bool.false_eq_true, if_false, List.head?_cons,
            Option.some.injEq] at h
          subst h
          exact ha



theorem chain_collapseAux : ∀ (b : Bool) (l : Str), NoWsRun (collapseAux b l) := by
  intro b l
  induction l generalizing b with
  | nil => simp [collapseAux, NoWsRun]
  | cons a t ih =>
      cases ha : isWs a with
      | true =>
          cases b with
          | true =>
              simp only [collapseAux, ha, if_true]
              exact ih true
          | false =>
              simp only [collapseAux, ha, if_true]
              refine List.chain'_cons'.mpr ⟨?_, ih true⟩
              intro c hc h
              exact absurd (collapseAux_true_head t c hc) (by simp [h.2])
      | false =>
          simp only [collapseAux, ha, Bool.false_eq_true, if_false]
          refine List.chain'_cons'.mpr ⟨?_, ih false⟩
          intro c _ h
          simp [ha] at h

theorem collapseAux_true_eq_false (t : Str)
    (h : ∀ c, t.head? = some c → isWs c = false) :
    collapseAux true t = collapseAux false t := by
  cases t with
  | nil => rfl
  | cons d t' =>
      have hd := h d rfl
      simp only [collapseAux, hd, Bool.false_eq_true, if_false]

theorem collapseAux_fix : ∀ l : Str,
    (∀ c ∈ l, isWs c = true → c = ' ') → NoWsRun l → collapseAux false l = l := by
  intro l
  induction l with
  | nil => intro _ _; rfl
  | cons a t ih =>
      intro hmem hchain
      have htail : NoWsRun t := hchain.tail
      have hmemt : ∀ c ∈ t, isWs c = true → c = ' ' :=
        fun c hc => hmem c (List.mem_cons_of_mem _ hc)
      cases ha : isWs a with
      | true =>
          have ha' : a = ' ' := hmem a (List.mem_cons_self _ _) ha
          have hhead : ∀ c, t.head? = some c → isWs c = false := by
            intro c hc
            have := (List.chain'_cons'.mp hchain).1 c hc
            cases hw : isWs c with
            | false => rfl
            | true => exact absurd ⟨ha, hw⟩ this
          simp only [collapseAux, ha, if_true, Bool.false_eq_true, if_false]
          rw [collapseAux_true_eq_false t hhead, ih hmemt htail, ha']
      | false =>
          simp only [collapseAux, ha, Bool.false_eq_true, if_false]
          rw [ih hmemt htail]

theorem head_dropWhile (p : Char → Bool) : ∀ (l : Str) (c : Char),
    ((l.dropWhile p).head? = some c) → p c = false := by
  intro l
  induction l with
  | nil => intro c h; simp [List.dropWhile] at h
  | cons a t ih =>
      intro c h
      cases ha : p a with
      | true =>
          rw [List.dropWhile_cons_of_pos ha] at h
          exact ih c h
      | false =>
          rw [List.dropWhile_cons_of_neg (by simp [ha])] at h
          simp only [List.head?_cons, Option.some.injEq] at h
          subst h
          exact ha

theorem dropWhile_eq_self_of_head (p : Char → Bool) (l : Str)
    (h : ∀ c, l.head? = some c → p c = false) : l.dropWhile p = l := by
  cases l with
  | nil => rfl
  | cons a t => exact List.dropWhile_cons_of_neg (by simp [h a rfl])

theorem chain_dropWhile (R : Char → Char → Prop) (p : Char → Bool) :
    ∀ l : Str, List.Chain' R l → List.Chain' R (l.dropWhile p) := by
  intro l h
  induction l with
  | nil => simp
  | cons a t ih =>
      cases ha : p a with
      | true =>
          rw [List.dropWhile_cons_of_pos ha]
          exact ih h.tail
      | false =>
          rw [List.dropWhile_cons_of_neg (by simp [ha])]
          exact h

/-! ### Strip lemmas -/

theorem stripList_subset (l : Str) : ∀ c ∈ stripList l, c ∈ l := by
  intro c hc
  unfold stripList at hc
  rw [List.mem_reverse] at hc
  have h1 := (List.dropWhile_sublist (l := (l.dropWhile isWs).reverse) isWs).subset hc
  rw [List.mem_reverse] at h1
  exact (List.dropWhile_sublist isWs).subset h1

theorem stripList_chain (R : Char → Char → Prop) (hsym : ∀ a b, R a b → R b a) (l : Str)
    (h : List.Chain' R l) : List.Chain' R (stripList l) := by
  unfold stripList
  have h1 : List.Chain' R (l.dropWhile isWs) := chain_dropWhile R isWs l h
  have h2 : List.Chain' R (l.dropWhile isWs).reverse :=
    List.chain'_reverse.mpr (h1.imp hsym)
  have h3 : List.Chain' R ((l.dropWhile isWs).reverse.dropWhile isWs) :=
    chain_dropWhile R isWs _ h2
  exact List.chain'_reverse.mpr (h3.imp hsym)

theorem head_of_ne_nil_of_append {α : Type} (l t : List α) (c : α)
    (h : l.head? = some c) : (l ++ t).head? = some c := by
  cases l with
  | nil => simp at h
  | cons a l' => simpa using h

theorem stripList_head (l : Str) (c : Char) (h : (stripList l).head? = some c) :
    isWs c = false := by
  unfold stripList at h
  rw [List.head?_reverse] at h
  rcases hsuf : (l.dropWhile isWs).reverse.dropWhile isWs with _ | ⟨d, y'⟩
  · rw [hsuf] at h; simp at h
  · rw [hsuf] at h
    obtain ⟨u, hu⟩ := List.dropWhile_suffix (l := (l.dropWhile isWs).reverse) isWs
    rw [hsuf] at hu
    have hrev : l.dropWhile isWs = (d :: y').reverse ++ u.reverse := by
      rw [← List.reverse_append, hu, List.reverse_reverse]
    have hlast : (d :: y').reverse.head? = some c := by
      rw [List.head?_reverse]
      exact h
    have hhead : (l.dropWhile isWs).head? = some c := by
      rw [hrev]
      refine head_of_ne_nil_of_append _ _ _ ?_
      exact hlast
    exact head_dropWhile isWs l c hhead

theorem stripList_last (l : Str) (c : Char) (h : (stripList l).getLast? = some c) :
    isWs c = false := by
  unfold stripList at h
  rw [List.getLast?_reverse] at h
  exact head_dropWhile isWs _ c h

theorem stripList_trim (l : Str) : TrimEnds (stripList l) :=
  ⟨fun c h => stripList_head l c h, fun c h => stripList_last l c h⟩

theorem stripList_fix (l : Str) (h : TrimEnds l) : stripList l = l := by
  unfold stripList
  rw [dropWhile_eq_self_of_head isWs l h.1]
  rw [dropWhile_eq_self_of_head isWs l.reverse (by
    intro c hc
    rw [List.head?_reverse] at hc
    exact h.2 c hc)]
  exact List.reverse_reverse l

/-! ### The normalizer invariant and its fixpoint -/

theorem map_id_of_forall {α : Type} (f : α → α) : ∀ l : List α,
    (∀ c ∈ l, f c = c) → l.map f = l := by
  intro l
  induction l with
  | nil => intro _; rfl
  | cons a t ih =>
      intro h
      simp only [List.map_cons]
      rw [h a (List.mem_cons_self _ _), ih (fun c hc => h c (List.mem_cons_of_mem _ hc))]

theorem cleanList_cleanChars (l : Str) : CleanChars (cleanList l) := by
  intro c hc
  have hcol := stripList_subset _ c hc
  rcases mem_collapseAux false _ c hcol with h | ⟨hm, hw⟩
  · subst h
    refine ⟨by decide, by decide, fun _ => rfl⟩
  · rcases List.mem_map.mp hm with ⟨a, _, ha⟩
    have hpa : isPunct (if isPunct a then ' ' else a) = false := by
      cases hp : isPunct a with
      | true => simp only [hp, if_true]; decide
      | false => simp only [hp, Bool.false_eq_true, if_false]
    constructor
    · rw [← ha]
      exact isPunct_toLower _ hpa
    · refine ⟨?_, fun h => absurd h (by simp [hw])⟩
      rw [← ha]
      exact toLower_toLower _

theorem cleanList_noWsRun (l : Str) : NoWsRun (cleanList l) := by
  unfold cleanList
  refine stripList_chain _ ?_ _ (chain_collapseAux false _)
  intro a b h hab
  exact h ⟨hab.2, hab.1⟩

theorem cleanList_trim (l : Str) : TrimEnds (cleanList l) := stripList_trim _

theorem cleanList_fix (l : Str) (h1 : CleanChars l) (h2 : NoWsRun l) (h3 : TrimEnds l) :
    cleanList l = l := by
  unfold cleanList collapseWs
  rw [map_id_of_forall _ l (by
    intro c hc
    rcases h1 c hc with ⟨hp, hl, _⟩
    rw [hp]
    simpa using hl)]
  rw [collapseAux_fix l (fun c hc => (h1 c hc).2.2) h2]
  exact stripList_fix l h3

theorem cleanList_idem (l : Str) : cleanList (cleanList l) = cleanList l :=
  cleanList_fix _ (cleanList_cleanChars l) (cleanList_noWsRun l) (cleanList_trim l)

/-! ### Scanner lemmas -/

theorem dlookup_dinsert {α : Type} (l : List (Str × α)) (k : Str) (v : α) :
    dlookup (dinsert l k v) k = some v := by
  induction l with
  | nil => simp [dinsert, dlookup]
  | cons kv rest ih =>
      by_cases h : kv.1 = k
      · simp [dinsert, dlookup, h]
      · simp only [dinsert, h, if_false]
        simp only [dlookup, h, if_false]
        exact ih

theorem scanPage_stop (sections : List Str) (idx : Nat) (acc text : Str) (fd : SDict)
    (h : ¬(idx + 1 < sections.length)) :
    scanPage sections idx acc text fd = (idx, acc, text, fd) := by
  unfold scanPage
  cases hg : sections.length - idx with
  | zero => rfl
  | succ g => simp [scanPageGas, h]

theorem scanPage_none (sections : List Str) (idx : Nat) (acc text : Str) (fd : SDict)
    (h : idx + 1 < sections.length)
    (hs : compile_section_pattern (sections.getD (idx + 1) []) text = none) :
    scanPage sections idx acc text fd = (idx, acc ++ text, text, fd) := by
  obtain ⟨g, hg⟩ : ∃ g, sections.length - idx = g + 1 := ⟨sections.length - idx - 1, by omega⟩
  unfold scanPage
  rw [hg]
  show (if idx + 1 < sections.length then
      match compile_section_pattern (sections.getD (idx + 1) []) text with
      | some st =>
          scanPageGas sections g (idx + 1) [] (text.drop st)
            (dinsert fd (sections.getD idx []) (acc ++ stripList (text.take st)))
      | none => (idx, acc ++ text, text, fd)
    else (idx, acc, text, fd)) = (idx, acc ++ text, text, fd)
  rw [if_pos h, hs]

theorem scanPage_found (sections : List Str) (idx st : Nat) (acc text : Str) (fd : SDict)
    (h : idx + 1 < sections.length)
    (hs : compile_section_pattern (sections.getD (idx + 1) []) text = some st) :
    scanPage sections idx acc text fd =
      scanPage sections (idx + 1) [] (text.drop st)
        (dinsert fd (sections.getD idx []) (acc ++ stripList (text.take st))) := by
  have hg : sections.length - idx = (sections.length - (idx + 1)) + 1 := by omega
  unfold scanPage
  rw [hg]
  show (if idx + 1 < sections.length then
      match compile_section_pattern (sections.getD (idx + 1) []) text with
      | some st =>
          scanPageGas sections (sections.length - (idx + 1)) (idx + 1) [] (text.drop st)
            (dinsert fd (sections.getD idx []) (acc ++ stripList (text.take st)))
      | none => (idx, acc ++ text, text, fd)
    else (idx, acc, text, fd)) = _
  rw [if_pos h, hs]

theorem scanPageGas_idx_le (sections : List Str) : ∀ (gas idx : Nat) (acc text : Str) (fd : SDict),
    idx ≤ (scanPageGas sections gas idx acc text fd).1 := by
  intro gas
  induction gas with
  | zero => intro idx acc text fd; exact Nat.le_refl idx
  | succ g ih =>
      intro idx acc text fd
      simp only [scanPageGas]
      by_cases h : idx + 1 < sections.length
      · rw [if_pos h]
        cases hs : compile_section_pattern (sections.getD (idx + 1) []) text with
        | some st => exact Nat.le_trans (Nat.le_succ idx) (ih (idx + 1) _ _ _)
        | none => exact Nat.le_refl idx
      · rw [if_neg h]

theorem scanPageGas_idx_lt (sections : List Str) : ∀ (gas idx : Nat) (acc text : Str) (fd : SDict),
    idx < sections.length → (scanPageGas sections gas idx acc text fd).1 < sections.length := by
  intro gas
  induction gas with
  | zero => intro idx acc text fd h; exact h
  | succ g ih =>
      intro idx acc text fd h
      simp only [scanPageGas]
      by_cases hg : idx + 1 < sections.length
      · rw [if_pos hg]
        cases hs : compile_section_pattern (sections.getD (idx + 1) []) text with
        | some st => exact ih (idx + 1) _ _ _ hg
        | none => exact h
      · rw [if_neg hg]
        exact h

theorem scanPagesAux_idx_le (sections : List Str) : ∀ (pages : List Str) (idx : Nat)
    (acc : Str) (t0 : Option Str) (fd : SDict),
    idx ≤ (scanPagesAux sections pages idx acc t0 fd).1 := by
  intro pages
  induction pages with
  | nil => intro idx acc t0 fd; exact Nat.le_refl idx
  | cons pg rest ih =>
      intro idx acc t0 fd
      simp only [scanPagesAux]
      rcases hp : scanPage sections idx acc (cleanList pg) fd with ⟨idx', acc', t', fd'⟩
      have h1 : idx ≤ idx' := by
        have := scanPageGas_idx_le sections (sections.length - idx) idx acc (cleanList pg) fd
        rw [show scanPageGas sections (sections.length - idx) idx acc (cleanList pg) fd
              = scanPage sections idx acc (cleanList pg) fd from rfl, hp] at this
        exact this
      exact Nat.le_trans h1 (ih idx' acc' (some t') fd')

theorem scanPagesAux_idx_lt (sections : List Str) : ∀ (pages : List Str) (idx : Nat)
    (acc : Str) (t0 : Option Str) (fd : SDict), idx < sections.length →
    (scanPagesAux sections pages idx acc t0 fd).1 < sections.length := by
  intro pages
  induction pages with
  | nil => intro idx acc t0 fd h; exact h
  | cons pg rest ih =>
      intro idx acc t0 fd h
      simp only [scanPagesAux]
      rcases hp : scanPage sections idx acc (cleanList pg) fd with ⟨idx', acc', t', fd'⟩
      have h1 : idx' < sections.length := by
        have := scanPageGas_idx_lt sections (sections.length - idx) idx acc (cleanList pg) fd h
        rw [show scanPageGas sections (sections.length - idx) idx acc (cleanList pg) fd
              = scanPage sections idx acc (cleanList pg) fd from rfl, hp] at this
        exact this
      exact ih idx' acc' (some t') fd' h1

theorem scanPagesAux_nil_sections : ∀ (pages : List Str) (acc : Str) (t0 : Option Str)
    (fd : SDict), pages ≠ [] →
    ∃ t, scanPagesAux [] pages 0 acc t0 fd = (0, acc, some t, fd) := by
  intro pages
  induction pages with
  | nil => intro acc t0 fd h; exact absurd rfl h
  | cons pg rest ih =>
      intro acc t0 fd _
      have hp : scanPage [] 0 acc (cleanList pg) fd = (0, acc, cleanList pg, fd) := rfl
      simp only [scanPagesAux, hp]
      cases rest with
      | nil => exact ⟨cleanList pg, rfl⟩
      | cons r rs => exact ih acc (some (cleanList pg)) fd (by simp)

/-! ### TOC loop lemmas -/

/-- Whether the `break` of `extract_table_of_contents` executes at some
point of the run: this mirrors the control flow of `tocLoop` page by page
(same marker split, same `toc_found` update, same line processing threading
`current_chapter` and the dict) and returns `true` exactly when some page is
reached with `toc_found` set, the marker absent from the page, and the
document title present — the termination condition.  A `KeyError` from line
processing ends the run without the break, so it yields `false`. -/
def tocBreaks (title : Str) : List Str → Str → CS → Bool → Bool
  | [], _, _, _ => false
  | p :: rest, cc, cs, tf =>
      let mfound := containsSub tocMarker p
      let text := if mfound then afterMarker tocMarker p else p
      let tf' := tf || mfound
      if tf' then
        if containsSub title text && !mfound then true
        else
          match processLines (splitLines text) cc cs with
          | Except.error _ => false
          | Except.ok (cc', cs') => tocBreaks title rest cc' cs' tf'
      else tocBreaks title rest cc cs tf'

theorem tocLoop_no_fire (title : Str) : ∀ (pages : List Str) (i : Nat) (cs : CS) (cc : Str)
    (tf : Bool) (lp : Nat) (cs' : CS) (lp' : Nat), pages ≠ [] →
    tocBreaks title pages cc cs tf = false →
    tocLoop title pages i cs cc tf lp = Except.ok (cs', lp') →
    lp' = i + pages.length - 1 := by
  intro pages
  induction pages with
  | nil => intro i cs cc tf lp cs' lp' h _ _; exact absurd rfl h
  | cons p rest ih =>
      intro i cs cc tf lp cs' lp' _ hbr hrun
      simp only [tocLoop] at hrun
      simp only [tocBreaks] at hbr
      have hcont : ∀ (cs₂ : CS) (cc₂ : Str) (tf₂ : Bool),
          tocBreaks title rest cc₂ cs₂ tf₂ = false →
          tocLoop title rest (i + 1) cs₂ cc₂ tf₂ i = Except.ok (cs', lp') →
          lp' = i + (p :: rest).length - 1 := by
        intro cs₂ cc₂ tf₂ hbr₂ hr
        cases hrest : rest with
        | nil =>
            rw [hrest] at hr
            simp only [tocLoop, Except.ok.injEq, Prod.mk.injEq] at hr
            simp [hr.2]
        | cons r rs =>
            have hne : rest ≠ [] := by simp [hrest]
            have hrec := ih (i + 1) cs₂ cc₂ tf₂ i cs' lp' hne hbr₂ hr
            have hlen : rest.length = rs.length + 1 := by rw [hrest]; simp
            simp only [List.length_cons] at hrec ⊢
            omega
      cases hm : containsSub tocMarker p with
      | true =>
          rw [hm] at hrun hbr
          simp only [Bool.or_true, if_true, Bool.not_true, Bool.and_false,
            Bool.false_eq_true, if_false] at hrun hbr
          cases hpl : processLines (splitLines (afterMarker tocMarker p)) cc cs with
          | error e =>
              rw [hpl] at hrun
              exact absurd hrun (by simp)
          | ok r =>
              rw [hpl] at hrun hbr
              rcases r with ⟨cc₂, cs₂⟩
              exact hcont cs₂ cc₂ true (by simpa using hbr) (by simpa using hrun)
      | false =>
          rw [hm] at hrun hbr
          simp only [Bool.or_false, Bool.not_false, Bool.and_true,
            Bool.false_eq_true, if_false] at hrun hbr
          cases tf with
          | false =>
              simp only [Bool.false_eq_true, if_false] at hrun hbr
              exact hcont cs cc false hbr hrun
          | true =>
              simp only [if_true] at hrun hbr
              cases hb : containsSub title p with
              | true =>
                  rw [hb] at hbr
                  simp at hbr
              | false =>
                  rw [hb] at hrun hbr
                  simp only [Bool.false_eq_true, if_false] at hrun hbr
                  cases hpl : processLines (splitLines p) cc cs with
                  | error e =>
                      rw [hpl] at hrun
                      exact absurd hrun (by simp)
                  | ok r =>
                      rw [hpl] at hrun hbr
                      rcases r with ⟨cc₂, cs₂⟩
                      exact hcont cs₂ cc₂ true (by simpa using hbr) (by simpa using hrun)

/-! ### Claim theorems -/

def titleArrest : Str := ("arrest of person").toList

def textArrestSingular : Str := ("arrest of person").toList

def textArrestPlural : Str := ("arrests of persons").toList

/-- C6: the pattern compiled from the normalized title "arrest of person"
matches both "arrest of person" and "arrests of persons" (a match is found
at position 0 of each text): every word's trailing "s" is individually
optional, and no word's alternation demands plural and singular at once. -/
theorem c6_pattern_pluralization :
    compile_section_pattern titleArrest textArrestSingular = some 0 ∧
      compile_section_pattern titleArrest textArrestPlural = some 0 :=
  ⟨rfl, rfl⟩

/-- C7: `clean_text` is idempotent on every input string, and maps the empty
string to the empty string. -/
theorem c7_clean_text_idempotent :
    (∀ s : String, clean_text (clean_text s) = clean_text s) ∧ clean_text ("") = ("") := by
  refine ⟨fun s => ?_, rfl⟩
  exact congrArg String.mk (cleanList_idem s.toList)

/-- C8: a TOC section line processed while the current chapter is still the
initial empty string (which is not a key of the chapters dict) makes
`process_toc_line` raise a `KeyError` — a deterministic failure, not a skip
or an empty result. -/
theorem c8_section_line_without_chapter_raises (line : Str) (cs : CS)
    (hch : is_chapter_line line = false) (hsec : is_section_line line = true)
    (hcc : dlookup cs [] = none) :
    process_toc_line line [] cs = Except.error PyErr.keyError := by
  unfold process_toc_line
  rw [hch]
  simp only [Bool.false_eq_true, if_false]
  unfold is_section_line at hsec
  cases hg : sectionGroup line with
  | none => rw [hg] at hsec; simp at hsec
  | some g => rw [hcc]

def lineC8 : Str := ("1. Short title").toList

theorem c8_section_line_without_chapter_raises_witness :
    is_chapter_line lineC8 = false ∧ is_section_line lineC8 = true ∧
      dlookup ([] : CS) [] = none ∧
      process_toc_line lineC8 [] [] = Except.error PyErr.keyError :=
  ⟨rfl, rfl, rfl, c8_section_line_without_chapter_raises lineC8 [] rfl rfl rfl⟩

/-- C9: for every document and every writer outcome, the orchestrator
`extract_sections_to_json` never lets an exception of the pipeline escape:
each raised `PyErr` is matched by one of the `except` clauses (the final
`except Exception` catches every modelled exception class), so the result is
always an `Except.ok` outcome, never an `Except.error`. -/
theorem c9_orchestrator_never_propagates (doc : PyDoc) (writeRes : Except PyErr Unit) :
    ∃ o : Outcome, extract_sections_to_json doc writeRes = Except.ok o := by
  unfold extract_sections_to_json
  cases runPipeline doc writeRes with
  | ok d => exact ⟨Outcome.success d, rfl⟩
  | error e => cases e <;> exact ⟨_, rfl⟩

/-- C5: over any run of the page loop on a non-empty section list,
`current_section_index` never decreases (each boundary advances it by
exactly one inside `scanPageGas`, and it is never rewound) and never
exceeds `len(sections) - 1`, so the guard `idx + 1 < len(sections)` keeps
every `sections.getD (idx + 1)` lookup — the "next" pattern — in range. -/
theorem c5_section_index_monotone_bounded (sections pages : List Str) (idx : Nat)
    (acc : Str) (t0 : Option Str) (fd : SDict)
    (hne : sections ≠ []) (hidx : idx ≤ sections.length - 1) :
    idx ≤ (scanPagesAux sections pages idx acc t0 fd).1 ∧
      (scanPagesAux sections pages idx acc t0 fd).1 ≤ sections.length - 1 := by
  have hlen : 1 ≤ sections.length := by
    cases sections with
    | nil => exact absurd rfl hne
    | cons a t => simp
  have hlt : idx < sections.length := by omega
  refine ⟨scanPagesAux_idx_le sections pages idx acc t0 fd, ?_⟩
  have := scanPagesAux_idx_lt sections pages idx acc t0 fd hlt
  omega

def xTitle : Str := ("x").toList

def yTitle : Str := ("y").toList

def dC1 : PyDoc := ⟨[("alpha").toList, ("beta").toList], ("T").toList⟩

theorem c5_section_index_monotone_bounded_witness :
    ([xTitle, yTitle] : List Str) ≠ [] ∧ (0 : Nat) ≤ ([xTitle, yTitle] : List Str).length - 1 ∧
      (0 ≤ (scanPagesAux [xTitle, yTitle] dC1.pages 0 [] none []).1 ∧
        (scanPagesAux [xTitle, yTitle] dC1.pages 0 [] none []).1 ≤
          ([xTitle, yTitle] : List Str).length - 1) :=
  ⟨by simp, by decide,
    c5_section_index_monotone_bounded [xTitle, yTitle] dC1.pages 0 [] none []
      (by simp) (by decide)⟩

/-- C1 (code bug): the final unconditional assignment stores the local
`text` — the remaining normalized text of the *last page only* — and
discards `current_section_text`.  On a document with pages "alpha", "beta"
and sections ["x", "y"] (whose "next" title "y" never matches, so the
accumulator has collected both pages), the entry for "x" is just "beta":
the page "alpha" text carried in the accumulator is lost, contradicting
the spec's finalize-with-the-accumulator rule. -/
theorem c1_final_entry_drops_accumulator :
    extract_section_content dC1 0 [xTitle, yTitle] =
      Except.ok [(xTitle, ("beta").toList)] ∧
      (("beta").toList : Str) ≠ ("alpha").toList ++ ("beta").toList :=
  ⟨rfl, by decide⟩

/-- C10 counterexample: with a start page at or beyond the page count the
page loop never runs, the local `text` stays unbound, and the final
assignment's right-hand side raises `NameError` (`UnboundLocalError`), not
the `IndexError` the claim asserts for *every* start page. -/
theorem c10_counterexample :
    extract_section_content dC1 5 [] = Except.error PyErr.nameError ∧
      PyErr.nameError ≠ PyErr.indexError :=
  ⟨rfl, by decide⟩

/-- C10 amended: for every start page *below the page count* (so at least
one page is scanned and `text` is bound), `extract_section_content` with an
empty section list raises `IndexError` at the unconditional final-section
assignment instead of returning an empty mapping, and the orchestrator's
`except (ValueError, IndexError)` clause reports it as a data-processing
error; for start pages at or beyond the page count the failure is a
`NameError` on the unbound `text` instead. -/
theorem c10_amended (doc : PyDoc) (sp : Nat) (h : sp < doc.pages.length) :
    extract_section_content doc sp [] = Except.error PyErr.indexError ∧
      categorizeError PyErr.indexError = Except.ok (Outcome.dataErrorMsg PyErr.indexError) := by
  refine ⟨?_, rfl⟩
  have hne : doc.pages.drop sp ≠ [] := by
    have hlen : (doc.pages.drop sp).length = doc.pages.length - sp := List.length_drop sp doc.pages
    intro hnil
    rw [hnil] at hlen
    simp only [List.length_nil] at hlen
    omega
  obtain ⟨t, ht⟩ := scanPagesAux_nil_sections (doc.pages.drop sp) [] none [] hne
  unfold extract_section_content
  rw [ht]
  rfl

theorem c10_amended_witness :
    (1 < dC1.pages.length) ∧
      (extract_section_content dC1 1 [] = Except.error PyErr.indexError ∧
        categorizeError PyErr.indexError = Except.ok (Outcome.dataErrorMsg PyErr.indexError)) :=
  ⟨by decide, c10_amended dC1 1 (by decide)⟩

/-- C4: cross-page carry.  When the next section's pattern finds no match on
page N, the whole normalized page text is appended to the accumulator and
the page ends with the state otherwise unchanged (first equation); when the
pattern then matches on page N+1 at position `st`, the entry finalized for
the current section is exactly the carried accumulator followed by the
pre-match prefix of page N+1, stripped — nothing lost, nothing duplicated
(second equation and the lookup); and for the second-to-last section the
two-page run of the page loop reduces to precisely that insertion (final
equation). -/
theorem c4_cross_page_carry (sections : List Str) (idx st : Nat) (acc : Str)
    (pgN pgN1 : Str) (fd : SDict)
    (h : idx + 1 < sections.length)
    (hN : compile_section_pattern (sections.getD (idx + 1) []) (cleanList pgN) = none)
    (hN1 : compile_section_pattern (sections.getD (idx + 1) []) (cleanList pgN1) = some st) :
    scanPage sections idx acc (cleanList pgN) fd =
      (idx, acc ++ cleanList pgN, cleanList pgN, fd) ∧
    scanPage sections idx (acc ++ cleanList pgN) (cleanList pgN1) fd =
      scanPage sections (idx + 1) [] ((cleanList pgN1).drop st)
        (dinsert fd (sections.getD idx [])
          ((acc ++ cleanList pgN) ++ stripList ((cleanList pgN1).take st))) ∧
    dlookup
        (dinsert fd (sections.getD idx [])
          ((acc ++ cleanList pgN) ++ stripList ((cleanList pgN1).take st)))
        (sections.getD idx []) =
      some ((acc ++ cleanList pgN) ++ stripList ((cleanList pgN1).take st)) ∧
    (∀ t0 : Option Str, idx + 2 = sections.length →
      scanPagesAux sections [pgN, pgN1] idx acc t0 fd =
        (idx + 1, [], some ((cleanList pgN1).drop st),
          dinsert fd (sections.getD idx [])
            ((acc ++ cleanList pgN) ++ stripList ((cleanList pgN1).take st)))) := by
  refine ⟨scanPage_none sections idx acc (cleanList pgN) fd h hN,
    scanPage_found sections idx st (acc ++ cleanList pgN) (cleanList pgN1) fd h hN1,
    dlookup_dinsert fd (sections.getD idx []) _, ?_⟩
  intro t0 h2
  simp only [scanPagesAux]
  rw [scanPage_none sections idx acc (cleanList pgN) fd h hN]
  simp only [scanPagesAux]
  rw [scanPage_found sections idx st (acc ++ cleanList pgN) (cleanList pgN1) fd h hN1]
  rw [scanPage_stop sections (idx + 1) [] ((cleanList pgN1).drop st) _ (by omega)]

def aTitle : Str := ("a").toList

def bTitle : Str := ("b").toList

def pgXX : Str := ("xx").toList

def pgBYY : Str := ("b yy").toList

theorem c4_cross_page_carry_witness :
    (0 + 1 < ([aTitle, bTitle] : List Str).length) ∧
      compile_section_pattern (([aTitle, bTitle] : List Str).getD 1 []) (cleanList pgXX) = none ∧
      compile_section_pattern (([aTitle, bTitle] : List Str).getD 1 []) (cleanList pgBYY) = some 0 ∧
      (scanPage [aTitle, bTitle] 0 [] (cleanList pgXX) [] =
          (0, [] ++ cleanList pgXX, cleanList pgXX, []) ∧
        scanPage [aTitle, bTitle] 0 ([] ++ cleanList pgXX) (cleanList pgBYY) [] =
          scanPage [aTitle, bTitle] 1 [] ((cleanList pgBYY).drop 0)
            (dinsert [] (([aTitle, bTitle] : List Str).getD 0 [])
              (([] ++ cleanList pgXX) ++ stripList ((cleanList pgBYY).take 0))) ∧
        dlookup
            (dinsert [] (([aTitle, bTitle] : List Str).getD 0 [])
              (([] ++ cleanList pgXX) ++ stripList ((cleanList pgBYY).take 0)))
            (([aTitle, bTitle] : List Str).getD 0 []) =
          some (([] ++ cleanList pgXX) ++ stripList ((cleanList pgBYY).take 0)) ∧
        (∀ t0 : Option Str, 0 + 2 = ([aTitle, bTitle] : List Str).length →
          scanPagesAux [aTitle, bTitle] [pgXX, pgBYY] 0 [] t0 [] =
            (0 + 1, [], some ((cleanList pgBYY).drop 0),
              dinsert [] (([aTitle, bTitle] : List Str).getD 0 [])
                (([] ++ cleanList pgXX) ++ stripList ((cleanList pgBYY).take 0))))) :=
  ⟨by decide, rfl, rfl,
    c4_cross_page_carry [aTitle, bTitle] 0 0 [] pgXX pgBYY [] (by decide) rfl rfl⟩

def dC3 : PyDoc := ⟨[tocMarker, ("TITLEX more").toList], ("TITLEX").toList⟩

/-- C3 counterexample: the TOC of `dC3` starts on page 0 (the marker page)
and the document title reappears on page 1, so the termination condition
fires on page N = 1; the code sets `last_page = page.number` *before* the
`break`, so the returned `last_page` is 1 — not the preceding page's index 0
asserted by the claim. -/
theorem c3_counterexample :
    extract_table_of_contents dC3 = Except.ok ([], 1) ∧
      ¬(extract_table_of_contents dC3 = Except.ok ([], 0)) :=
  ⟨rfl, fun hc => absurd (congrArg Prod.snd (Except.ok.inj hc)) (by decide)⟩

/-- C3 amended: when the termination condition fires on a page N that is
not the first TOC page (the marker is absent from page N and the title
occurs in it, with `toc_found` already set), the loop returns N itself as
`last_page`, not N - 1; and whenever the termination condition never fires
during the run (`tocBreaks` is `false` — which also covers a title that
occurs only on marker pages or on pages before the TOC is found), a
successful run returns the final page's index. -/
theorem c3_amended :
    (∀ (title p : Str) (rest : List Str) (i : Nat) (cs : CS) (cc : Str) (lp : Nat),
        containsSub tocMarker p = false → containsSub title p = true →
        tocLoop title (p :: rest) i cs cc true lp = Except.ok (cs, i)) ∧
    (∀ (doc : PyDoc) (cs' : CS) (lp' : Nat), doc.pages ≠ [] →
        tocBreaks doc.title doc.pages [] [] false = false →
        extract_table_of_contents doc = Except.ok (cs', lp') →
        lp' = doc.pages.length - 1) := by
  constructor
  · intro title p rest i cs cc lp hm ht
    simp only [tocLoop, hm, ht, Bool.or_false, Bool.not_false, Bool.and_true,
      Bool.false_eq_true, if_false, if_true]
  · intro doc cs' lp' hne hbr hrun
    unfold extract_table_of_contents at hrun
    have := tocLoop_no_fire doc.title doc.pages 0 [] [] false 0 cs' lp' hne hbr hrun
    omega

def pageTitleC3 : Str := ("TITLEX more").toList

def titleC3 : Str := ("TITLEX").toList

/-- A document whose title does occur in the page text, but only on the
marker page, so the termination condition never fires even though the title
is not absent from every page. -/
def docTitleOnMarker : PyDoc :=
  ⟨[("ARRANGEMENT OF SECTIONS TITLEX").toList], ("TITLEX").toList⟩

theorem c3_amended_witness :
    (containsSub tocMarker pageTitleC3 = false ∧ containsSub titleC3 pageTitleC3 = true ∧
      tocLoop titleC3 [pageTitleC3] 7 [] [] true 3 = Except.ok ([], 7)) ∧
    (docTitleOnMarker.pages ≠ [] ∧
      containsSub docTitleOnMarker.title (("ARRANGEMENT OF SECTIONS TITLEX").toList) = true ∧
      tocBreaks docTitleOnMarker.title docTitleOnMarker.pages [] [] false = false ∧
      extract_table_of_contents docTitleOnMarker = Except.ok ([], 0) ∧
      (0 : Nat) = docTitleOnMarker.pages.length - 1) :=
  ⟨⟨rfl, rfl, c3_amended.1 titleC3 pageTitleC3 [] 7 [] [] 3 rfl rfl⟩,
    ⟨by simp [docTitleOnMarker], rfl, rfl, rfl,
      c3_amended.2 docTitleOnMarker [] 0 (by simp [docTitleOnMarker]) rfl rfl⟩⟩

def secAA : Str := ("aa").toList

def secBB : Str := ("bb").toList

def secCC : Str := ("cc").toList

def dC2 : PyDoc := ⟨[("aa x bb y cc z").toList], ("T").toList⟩

/-- C2 counterexample: for sections ["aa", "bb", "cc"] over the single page
"aa x bb y cc z" (layout S1 B1 S2 B2 S3 B3 with bodies "x", "y", "z"), the
scanner returns each body *prefixed with its own section title* — the entry
for "aa" is "aa x", not the title-free "x" the claim requires. -/
theorem c2_counterexample :
    extract_section_content dC2 0 [secAA, secBB, secCC] =
      Except.ok [(secAA, ("aa x").toList), (secBB, ("bb y").toList), (secCC, ("cc z").toList)] ∧
      ¬(extract_section_content dC2 0 [secAA, secBB, secCC] =
        Except.ok [(secAA, ("x").toList), (secBB, ("y").toList), (secCC, ("z").toList)]) :=
  ⟨rfl, fun hc => absurd (Except.ok.inj hc) (by decide)⟩

/-- C2 amended: for sections [S1, S2, S3] and a page whose normalized text
splits as `a ++ b ++ c`, where S2's pattern first matches exactly at the
start of `b` and S3's pattern first matches (within `b ++ c`) exactly at the
start of `c`, the result maps S1 to strip a, S2 to strip b, S3 to c: each
segment *begins with the matched section title itself* (the scan window is
cut at the match start, so a section's own title is part of its value), and
the last segment additionally keeps the title page text unstripped. -/
theorem c2_amended (S1 S2 S3 a b c pg title : Str)
    (hclean : cleanList pg = a ++ b ++ c)
    (h2 : compile_section_pattern S2 (a ++ b ++ c) = some a.length)
    (h3 : compile_section_pattern S3 (b ++ c) = some b.length)
    (h12 : S1 ≠ S2) (h13 : S1 ≠ S3) (h23 : S2 ≠ S3) :
    extract_section_content ⟨[pg], title⟩ 0 [S1, S2, S3] =
      Except.ok [(S1, stripList a), (S2, stripList b), (S3, c)] := by
  have hd1 : (a ++ b ++ c).drop a.length = b ++ c := by
    rw [List.append_assoc]; exact List.drop_left a (b ++ c)
  have ht1 : (a ++ b ++ c).take a.length = a := by
    rw [List.append_assoc]; exact List.take_left a (b ++ c)
  have hd2 : (b ++ c).drop b.length = c := List.drop_left b c
  have ht2 : (b ++ c).take b.length = b := List.take_left b c
  have e1 : scanPage [S1, S2, S3] 0 [] (a ++ b ++ c) [] =
      scanPage [S1, S2, S3] 1 [] (b ++ c) [(S1, stripList a)] := by
    rw [scanPage_found [S1, S2, S3] 0 a.length [] (a ++ b ++ c) [] (by simp) h2]
    rw [hd1, ht1]
    rfl
  have e2 : scanPage [S1, S2, S3] 1 [] (b ++ c) [(S1, stripList a)] =
      scanPage [S1, S2, S3] 2 [] c [(S1, stripList a), (S2, stripList b)] := by
    rw [scanPage_found [S1, S2, S3] 1 b.length [] (b ++ c) [(S1, stripList a)] (by simp) h3]
    rw [hd2, ht2]
    simp [dinsert, h12]
  have e3 : scanPage [S1, S2, S3] 2 [] c [(S1, stripList a), (S2, stripList b)] =
      (2, [], c, [(S1, stripList a), (S2, stripList b)]) :=
    scanPage_stop [S1, S2, S3] 2 [] c [(S1, stripList a), (S2, stripList b)] (by simp)
  have hrun : scanPagesAux [S1, S2, S3] ((⟨[pg], title⟩ : PyDoc).pages.drop 0) 0 [] none [] =
      (2, [], some c, [(S1, stripList a), (S2, stripList b)]) := by
    show scanPagesAux [S1, S2, S3] [pg] 0 [] none [] = _
    simp only [scanPagesAux]
    rw [hclean, e1, e2, e3]
  have hfin : dinsert [(S1, stripList a), (S2, stripList b)] S3 c =
      [(S1, stripList a), (S2, stripList b), (S3, c)] := by
    simp [dinsert, h13, h23]
  unfold extract_section_content
  rw [hrun]
  show Except.ok (dinsert [(S1, stripList a), (S2, stripList b)] S3 c) = _
  exact congrArg Except.ok hfin

def segA : Str := ("aa x ").toList

def segB : Str := ("bb y ").toList

def segC : Str := ("cc z").toList

def pgC2 : Str := ("aa x bb y cc z").toList

theorem c2_amended_witness :
    cleanList pgC2 = segA ++ segB ++ segC ∧
      compile_section_pattern secBB (segA ++ segB ++ segC) = some segA.length ∧
      compile_section_pattern secCC (segB ++ segC) = some segB.length ∧
      secAA ≠ secBB ∧ secAA ≠ secCC ∧ secBB ≠ secCC ∧
      extract_section_content ⟨[pgC2], ("T").toList⟩ 0 [secAA, secBB, secCC] =
        Except.ok [(secAA, stripList segA), (secBB, stripList segB), (secCC, segC)] :=
  ⟨rfl, rfl, rfl, by decide, by decide, by decide,
    c2_amended secAA secBB secCC segA segB segC pgC2 (("T").toList) rfl rfl rfl
      (by decide) (by decide) (by decide)⟩
